import Mathlib

/-!
Verification of `src/shared/store.util.ts`: the cycle-safe JSON serializer,
the logging `update` orchestrator, the `loggable` store decorator and the
`mergeable` store decorator.

JavaScript objects are embedded by reference: a `Heap` maps reference
numbers to objects (association lists of string keys and `JVal` values,
in insertion order), and `JVal.ref` is an object reference, so JS `===`
on objects is equality of reference numbers.  Machine-level details that
the code never exercises (number formatting beyond integers, exotic JSON
escapes) are modelled by the corresponding total Lean functions.
-/

/-- A JavaScript/JSON value: primitives plus object references into a heap. -/
inductive JVal where
  | str (s : String)
  | num (n : Int)
  | bool (b : Bool)
  | null
  | ref (r : Nat)
deriving DecidableEq, Repr

/-- A JavaScript object: its own fields, keys in insertion order. -/
abbrev JObj := List (String × JVal)

/-- The object heap: reference numbers with the referenced objects' fields. -/
abbrev Heap := List (Nat × JObj)

/-- Fields of the object with reference `r` (first binding wins, as `List.lookup`). -/
def fieldsOf (h : Heap) (r : Nat) : Option JObj :=
  h.lookup r

/-- JS `Array.prototype.indexOf`: index of the first occurrence, `none` for -1. -/
def indexOfJ (x : JVal) : List JVal → Option Nat
  | [] => none
  | y :: ys => if y = x then some 0 else (indexOfJ x ys).map (· + 1)

/-- The closure state of the replacer returned by `serializer()`:
the `stack` of currently-open ancestor values and the parallel `keys`. -/
structure SerSt where
  stack : List JVal
  keys : List String
deriving DecidableEq, Repr

/--
One invocation of the replacer returned by `serializer()` (called with no
arguments, so `replacer` is null and `cycleReplacer` is the default one),
for `store.util.ts` lines 43-67.  The mutable closure arrays `stack` and
`keys` are passed and returned explicitly.  `thisV` is the holder object
on which JSON.stringify invokes the replacer.
`stack.splice(thisPos + 1)` keeps the first `thisPos + 1` elements;
`keys.splice(thisPos, Infinity, key)` keeps the first `thisPos` elements
and appends `key`.
-/
def serializerStep (st : SerSt) (thisV : JVal) (key : String) (value : JVal) :
    SerSt × JVal :=
  if 0 < st.stack.length then
    let stack1 : List JVal :=
      match indexOfJ thisV st.stack with
      | some p => st.stack.take (p + 1)
      | none => st.stack ++ [thisV]
    let keys1 : List String :=
      match indexOfJ thisV st.stack with
      | some p => st.keys.take p ++ [key]
      | none => st.keys ++ [key]
    match indexOfJ value stack1 with
    | some q =>
      (⟨stack1, keys1⟩,
        if stack1.head? = some value then .str "[Circular ~]"
        else .str ("[Circular ~." ++ String.intercalate "." (keys1.take q) ++ "]"))
    | none => (⟨stack1, keys1⟩, value)
  else (⟨st.stack ++ [value], st.keys⟩, value)

/-- JSON string escaping of one character (the cases the repository's data uses). -/
def escChar (c : Char) : String :=
  if c = '"' then "\\\"" else if c = '\\' then "\\\\"
  else if c = '\n' then "\\n" else String.push "" c

/-- A JSON string literal. -/
def jsQuote (s : String) : String :=
  "\"" ++ String.join (s.toList.map escChar) ++ "\""

/-- Serialize the fields of one object left to right, threading the replacer
state, where `f` serializes one property (key and value) of the holder. -/
def jfieldsWith (f : SerSt → String → JVal → Option (SerSt × String)) :
    SerSt → List (String × JVal) → Option (SerSt × List String)
  | st, [] => some (st, [])
  | st, (k, v) :: rest =>
    (f st k v).bind fun a =>
      (jfieldsWith f a.1 rest).map fun b =>
        (b.1, (jsQuote k ++ ":" ++ a.2) :: b.2)

/--
`JSON.stringify`'s depth-first serialization of one value, with the
replacer returned by `serializer()` applied at every property (holder
`thisV`, property `key`, property value `value`).  `fuel` bounds the
nesting depth of object recursion; `serializeJSON` below supplies a fuel
that is proved sufficient for every heap (theorem `claim_C4_cycle_safety`).
-/
def jstr (h : Heap) : Nat → SerSt → JVal → String → JVal → Option (SerSt × String)
  | 0, _, _, _, _ => none
  | fuel + 1, st, thisV, key, value =>
    let a := serializerStep st thisV key value
    match a.2 with
    | .str s => some (a.1, jsQuote s)
    | .num n => some (a.1, toString n)
    | .bool b => some (a.1, if b then "true" else "false")
    | .null => some (a.1, "null")
    | .ref r =>
      let flds := (fieldsOf h r).getD []
      (jfieldsWith (fun st2 k2 v2 => jstr h fuel st2 (.ref r) k2 v2) a.1 flds).map
        fun b => (b.1, "\x7b" ++ String.intercalate "," b.2 ++ "\x7d")

/-- The distinct reference numbers bound in the heap. -/
def heapRefsList (h : Heap) : List Nat :=
  (h.map Prod.fst).dedup

/-- Models `JSON.stringify(value, serializer())`: root call with empty closure state;
the root holder is the wrapper object (the replacer never inspects it because
the stack is empty on the first invocation). -/
def serializeJSON (h : Heap) (v : JVal) : Option String :=
  (jstr h ((heapRefsList h).length + 1) ⟨[], []⟩ .null "" v).map Prod.snd

/-- A reference number unused by the heap. -/
def freshRef (h : Heap) : Nat :=
  (h.map Prod.fst).foldr max 0 + 1

/-- Serializing a state object (a root object whose identity is distinct from
every heap object), as `JSON.stringify(prevStore, serializer())` does in
`update`: the root object is given a fresh reference. -/
def serializeState (h : Heap) (o : JObj) : Option String :=
  serializeJSON ((freshRef h, o) :: h) (.ref (freshRef h))

/-- First-match lookup of a top-level property of a JS object. -/
def olookup (k : String) : JObj → Option JVal
  | [] => none
  | (k1, v) :: rest => if k1 = k then some v else olookup k rest

/--
The JS object spread `\x7b ...a, ...b \x7d` (used by `update` at lines 76-79
and by `merge` at line 108): the keys of `a` in order, each taking `b`'s value
when `b` also binds it, followed by the keys of `b` that `a` does not bind,
in `b`'s order.
-/
def spread2 (a b : JObj) : JObj :=
  a.map (fun kv => (kv.1, (olookup kv.1 b).getD kv.2)) ++
    b.filter (fun kv => (olookup kv.1 a).isNone)

/-- One console event emitted during an update.  `logPrev` carries the
cycle-safe clone of the previous state, represented by its serialization
(`JSON.parse` of that text, a JS builtin, is information-preserving on the
texts the serializer produces); `none` is JS `undefined`. -/
inductive ConsoleEv where
  | groupCollapsed (functionName : String) (newPatch : JObj) (functionLink : Option String)
  | logPrev (prevState : Option String)
  | logNext (nextState : JObj)
  | trace
  | groupEnd
deriving DecidableEq, Repr

/-- The `log` helper, `store.util.ts` lines 35-41: a collapsed group titled
with the caller name, the applied partial value and the caller link, then the
PREV STATE line, the NEXT STATE line, a stack trace, and the group end. -/
def log (functionName : String) (functionLink : Option String) (newPatch : JObj)
    (prevState : Option String) (nextState : JObj) : List ConsoleEv :=
  [.groupCollapsed functionName newPatch functionLink,
   .logPrev prevState, .logNext nextState, .trace, .groupEnd]

/-- Left-to-right, non-overlapping split on a non-empty separator, on
character lists.  `fuel` is the length of the remaining input, consumed at
least one character per step, so the fuel-exhaustion branch is unreachable. -/
def jsSplitGo (sep : List Char) : Nat → List Char → List Char → List (List Char)
  | _, acc, [] => [acc.reverse]
  | 0, acc, rest => [acc.reverse ++ rest]
  | fuel + 1, acc, c :: rest =>
    if sep.isPrefixOf (c :: rest) then
      acc.reverse :: jsSplitGo sep fuel [] ((c :: rest).drop sep.length)
    else jsSplitGo sep fuel (c :: acc) rest

/-- JS `String.prototype.split` with a non-empty string separator. -/
def jsSplit (sep : String) (s : String) : List String :=
  (jsSplitGo sep.data s.data.length [] s.data).map String.mk

/-- Models `err.stack.split('at ')[4]`: the fifth segment of the captured stack
trace, `none` (JS `undefined`) when the trace is too shallow. -/
def stackFrame (stackTrace : String) : Option String :=
  (jsSplit "at " stackTrace)[4]?

/-- Models `stackInfo[0]` where `stackInfo = segment.split(' ')` (a JS split always
yields at least one element, so the default is never used). -/
def frameName (segment : String) : String :=
  (jsSplit " " segment).headD ""

/-- Models `stackInfo[1]`: `none` is JS `undefined` when the segment has no space. -/
def frameLink (segment : String) : Option String :=
  (jsSplit " " segment)[1]?

/--
An update action, `update`'s second parameter: a partial value, or an updater
function of the previous state.  Because a JS updater is a closure that can
also read and assign the process-wide `loggable.enabled` flag, the function
case additionally threads that flag.
-/
inductive UpdAction where
  | value (p : JObj)
  | fn (f : JObj → Bool → JObj × Bool)

/-- An action that matches the spec's data model ("a pure function from
current state to a partial replacement"): it neither reads nor writes the
enabled flag. -/
def UpdAction.pureFn : UpdAction → Prop
  | .value _ => True
  | .fn f => ∀ s b, f s b = ((f s true).1, b)

/-- The partial value an action contributes: the action itself, or the
updater applied to the previous state (under the given flag). -/
def appliedPatch (a : UpdAction) (prev : JObj) (enabled : Bool) : JObj :=
  match a with
  | .value p => p
  | .fn f => (f prev enabled).1

/-- Outcome of one `update` call: either a thrown exception (nothing
published), or the value passed to the base container's `set`, the enabled
flag after the call, and the console events emitted. -/
inductive UpdResult where
  | thrown
  | published (ns : JObj) (enabledAfter : Bool) (console : List ConsoleEv)
deriving DecidableEq, Repr

/-- The published value of an outcome, if any. -/
def UpdResult.publishedValue : UpdResult → Option JObj
  | .thrown => none
  | .published ns _ _ => some ns

/-- The console events of an outcome. -/
def UpdResult.console : UpdResult → List ConsoleEv
  | .thrown => []
  | .published _ _ evs => evs

/--
The update orchestrator, `store.util.ts` lines 69-89.  `h` is the ambient
object heap for nested values, `stackTrace` the text of `new Error().stack`
captured at this call, `enabled` the value of `loggable.enabled` when the
call starts, `prevStore` the container's current value (`get(store)`).
Mirrors the source order: clone the previous state when logging is enabled,
run the action, shallow-merge, then (when the flag is enabled *now*) parse
the stack trace - indexing segment 4 of a shallow trace makes the JS code
call `.split` on `undefined`, a thrown TypeError that aborts the call before
`store.set(ns)` - and finally publish `ns`.
-/
def update (h : Heap) (stackTrace : String) (enabled : Bool) (prevStore : JObj)
    (action : UpdAction) : UpdResult :=
  let ps : Option String := if enabled then serializeState h prevStore else none
  let ar : JObj × Bool :=
    match action with
    | .value p => (p, enabled)
    | .fn f => f prevStore enabled
  let ns := spread2 prevStore ar.1
  if ar.2 then
    match stackFrame stackTrace with
    | none => .thrown
    | some seg => .published ns ar.2 (log (frameName seg) (frameLink seg) ar.1 ps ns)
  else .published ns ar.2 []

/-- The `set` of `loggableFunction` (lines 12-14): routed through the orchestrator
with the value as a non-function action. -/
def loggableSet (h : Heap) (stackTrace : String) (enabled : Bool) (prevStore : JObj)
    (v : JObj) : UpdResult :=
  update h stackTrace enabled prevStore (.value v)

/-- The `update` of `loggableFunction` (lines 9-11): routed through the orchestrator. -/
def loggableUpdate (h : Heap) (stackTrace : String) (enabled : Bool) (prevStore : JObj)
    (a : UpdAction) : UpdResult :=
  update h stackTrace enabled prevStore a

/-- A base writable container: just its current value. -/
structure WStore where
  value : JObj
deriving DecidableEq, Repr

/-- The base container's `set`: replaces the value and publishes it to
subscribers; the svelte writable emits no console output. -/
def writableSet (_ : WStore) (v : JObj) : WStore × List ConsoleEv :=
  (⟨v⟩, [])

/-- Models `get(w)`: the container's current value. -/
def writableGet (w : WStore) : JObj :=
  w.value

/-- The `merge` method added by `mergeable` (lines 107-109):
`w.set(\x7b ...get(w), ...value \x7d)`, straight to the base container's
`set`, never through the logging orchestrator. -/
def merge (w : WStore) (v : JObj) : WStore × List ConsoleEv :=
  writableSet w (spread2 (writableGet w) v)

/-- JS short-circuit choice of two possibly-absent values: the first when
present, otherwise the second. -/
def ofirst (x y : Option JVal) : Option JVal :=
  match x with
  | some v => some v
  | none => y

/--
Replacer-state invariant during the serialization of the fields of the
object chain `C` (the reference numbers of the currently open ancestors,
outermost first, the current holder last), with `kp` the property keys
leading from the root object to the current holder.  Either the holder has
not yet been pushed (`stack` holds exactly the proper ancestors - the state
right after descending into the holder), or the stack is the chain followed
by leftover entries from an already-serialized sibling subtree.
-/
def SerInv (st : SerSt) (C : List Nat) (kp : List String) : Prop :=
  (st.stack = C.dropLast.map JVal.ref ∧ st.keys = kp ∧ C.Nodup ∧ C.dropLast ≠ []) ∨
  (∃ J, st.stack = (C ++ J).map JVal.ref ∧ (C ++ J).Nodup ∧ st.keys.take kp.length = kp)

/-- Replacer state after serializing one property value of the holder chain
`C`: the stack is the chain plus leftovers, and the key prefix survives. -/
def SerPostVal (st : SerSt) (C : List Nat) (kp : List String) : Prop :=
  ∃ J, st.stack = (C ++ J).map JVal.ref ∧ (C ++ J).Nodup ∧ st.keys.take kp.length = kp

/-- Replacer state after serializing all fields of the holder chain `C`:
like `SerPostVal` but the holder itself may never have been pushed (when it
had no fields). -/
def SerPostFields (st : SerSt) (C : List Nat) (kp : List String) : Prop :=
  ∃ J, st.stack = (C.dropLast ++ J).map JVal.ref ∧ (C.dropLast ++ J).Nodup ∧
    st.keys.take kp.length = kp

theorem olookup_append (k : String) (xs ys : JObj) :
    olookup k (xs ++ ys) = ofirst (olookup k xs) (olookup k ys) := by
  induction xs with
  | nil => simp [olookup, ofirst]
  | cons kv rest ih =>
    by_cases hk : kv.1 = k
    · simp [olookup, hk, ofirst]
    · simpa [olookup, hk] using ih

theorem olookup_map (k : String) (a : JObj) (g : String → JVal → JVal) :
    olookup k (a.map (fun kv => (kv.1, g kv.1 kv.2))) = (olookup k a).map (g k) := by
  induction a with
  | nil => simp [olookup]
  | cons kv rest ih =>
    by_cases hk : kv.1 = k
    · simp [olookup, hk]
    · simpa [olookup, hk] using ih

theorem olookup_filter (k : String) (b : JObj) (p : String × JVal → Bool)
    (hp : ∀ v, p (k, v) = true) :
    olookup k (b.filter p) = olookup k b := by
  induction b with
  | nil => simp
  | cons kv rest ih =>
    by_cases hk : kv.1 = k
    · have : p kv = true := by
        have : kv = (k, kv.2) := by cases kv; simp_all
        rw [this]; exact hp kv.2
      simp [List.filter_cons, this, olookup, hk]
    · by_cases hpk : p kv = true
      · simpa [List.filter_cons, hpk, olookup, hk] using ih
      · simp only [List.filter_cons]
        rw [if_neg (by simp [hpk])]
        rw [ih]
        simp [olookup, hk]

/-- The shallow-merge law per top-level key: in the spread the second
object's binding wins, and otherwise the first object's binding survives. -/
theorem olookup_spread2 (k : String) (a b : JObj) :
    olookup k (spread2 a b) = ofirst (olookup k b) (olookup k a) := by
  rw [spread2, olookup_append,
    olookup_map k a (fun k1 v1 => (olookup k1 b).getD v1)]
  cases ha : olookup k a with
  | some v =>
    cases hb : olookup k b with
    | some w => simp [ofirst]
    | none => simp [ofirst]
  | none =>
    rw [olookup_filter k b _ (fun v => by simp [ha])]
    cases hb : olookup k b with
    | some w => simp [ofirst]
    | none => simp [ofirst]

theorem olookup_isSome_of_mem {k : String} {v : JVal} {p : JObj}
    (hm : (k, v) ∈ p) : (olookup k p).isSome := by
  induction p with
  | nil => simp at hm
  | cons kv rest ih =>
    by_cases hk : kv.1 = k
    · simp [olookup, hk]
    · rcases List.mem_cons.mp hm with h | h
      · exact absurd (congrArg Prod.fst h.symm) hk
      · simpa [olookup, hk] using ih h

theorem olookup_of_mem_nodup {k : String} {v : JVal} {p : JObj}
    (hnd : (p.map Prod.fst).Nodup) (hm : (k, v) ∈ p) : olookup k p = some v := by
  induction p with
  | nil => simp at hm
  | cons kv rest ih =>
    rcases List.mem_cons.mp hm with h | h
    · cases h; simp [olookup]
    · have hk : kv.1 ≠ k := by
        intro hkk
        have : k ∈ rest.map Prod.fst := List.mem_map.mpr ⟨(k, v), h, rfl⟩
        simp only [List.map_cons, List.nodup_cons] at hnd
        exact hnd.1 (hkk ▸ this)
      have hnd' : (rest.map Prod.fst).Nodup := by
        simp only [List.map_cons, List.nodup_cons] at hnd
        exact hnd.2
      simpa [olookup, hk] using ih hnd' h

theorem list_map_eq_self {α : Type} (f : α → α) (l : List α)
    (hf : ∀ x ∈ l, f x = x) : l.map f = l := by
  induction l with
  | nil => rfl
  | cons x xs ih => simp_all

/-- Whatever branch `update` takes, a published value is the shallow merge
of the previous state with the action's partial value. -/
theorem update_published_eq (h : Heap) (t : String) (e : Bool) (st : JObj)
    (a : UpdAction) (ns : JObj) (e2 : Bool) (evs : List ConsoleEv)
    (hok : update h t e st a = .published ns e2 evs) :
    ns = spread2 st (appliedPatch a st e) := by
  cases a with
  | value p =>
    simp only [update, appliedPatch] at hok ⊢
    split at hok
    · split at hok
      · simp at hok
      · simp only [UpdResult.published.injEq] at hok
        exact hok.1.symm
    · simp only [UpdResult.published.injEq] at hok
      exact hok.1.symm
  | fn f =>
    simp only [update, appliedPatch] at hok ⊢
    split at hok
    · split at hok
      · simp at hok
      · simp only [UpdResult.published.injEq] at hok
        exact hok.1.symm
    · simp only [UpdResult.published.injEq] at hok
      exact hok.1.symm

/-- C1: for every container state and every update action (a plain partial
value or an updater function applied to the previous state), the value
published to the base container obeys the shallow-merge law at every
top-level property: the partial's binding wins, and a property of the
previous state that the partial does not mention is retained unchanged. -/
theorem claim_C1_shallow_merge_law (h : Heap) (t : String) (e : Bool) (st : JObj)
    (a : UpdAction) (ns : JObj) (e2 : Bool) (evs : List ConsoleEv)
    (hok : update h t e st a = .published ns e2 evs) (k : String) :
    olookup k ns = ofirst (olookup k (appliedPatch a st e)) (olookup k st) := by
  rw [update_published_eq h t e st a ns e2 evs hok]
  exact olookup_spread2 k st (appliedPatch a st e)

theorem claim_C1_shallow_merge_law_witness :
    update [] "" false [("a", .num 1)] (.value [("b", .num 2)]) =
      .published [("a", .num 1), ("b", .num 2)] false [] ∧
    olookup "b" [("a", .num 1), ("b", .num 2)] =
      ofirst (olookup "b" (appliedPatch (.value [("b", .num 2)]) [("a", .num 1)] false))
        (olookup "b" [("a", .num 1)]) :=
  ⟨by decide,
   claim_C1_shallow_merge_law [] "" false [("a", .num 1)] (.value [("b", .num 2)])
     [("a", .num 1), ("b", .num 2)] false [] (by decide) "b"⟩

/-- C8: applying the same partial value twice in a row yields the same final
state as applying it once - the shallow merge shared by `update` (lines 76-79)
and `merge` (line 108) is idempotent in its partial argument, for any partial
with distinct top-level keys (every JS object literal satisfies this). -/
theorem claim_C8_idempotence (prev p : JObj) (hp : (p.map Prod.fst).Nodup) :
    spread2 (spread2 prev p) p = spread2 prev p := by
  have key : spread2 (spread2 prev p) p =
      (spread2 prev p).map (fun kv => (kv.1, (olookup kv.1 p).getD kv.2)) ++
        p.filter (fun kv => (olookup kv.1 (spread2 prev p)).isNone) := rfl
  have hfil : p.filter (fun kv => (olookup kv.1 (spread2 prev p)).isNone) = [] := by
    rw [List.filter_eq_nil_iff]
    intro kv hkv
    have hkv' : (kv.1, kv.2) ∈ p := by cases kv; exact hkv
    have h1 : (olookup kv.1 p).isSome := olookup_isSome_of_mem hkv'
    rw [olookup_spread2]
    cases hb : olookup kv.1 p with
    | none => rw [hb] at h1; simp at h1
    | some w => simp [hb, ofirst]
  rw [key, hfil, List.append_nil]
  apply list_map_eq_self
  intro kv hkv
  rcases List.mem_append.mp hkv with hm | hm
  · rcases List.mem_map.mp hm with ⟨kw, _, rfl⟩
    cases hb : olookup kw.1 p <;> simp [hb]
  · have hmp : kv ∈ p := (List.mem_filter.mp hm).1
    have hmp' : (kv.1, kv.2) ∈ p := by cases kv; exact hmp
    have hl : olookup kv.1 p = some kv.2 := olookup_of_mem_nodup hp hmp'
    cases kv
    simp_all

theorem claim_C8_idempotence_witness :
    ((([("b", JVal.num 2)] : JObj).map Prod.fst).Nodup) ∧
    spread2 (spread2 [("a", JVal.num 1)] [("b", JVal.num 2)]) [("b", JVal.num 2)] =
      spread2 [("a", JVal.num 1)] [("b", JVal.num 2)] :=
  ⟨by decide, claim_C8_idempotence [("a", JVal.num 1)] [("b", JVal.num 2)] (by decide)⟩

/-- C9: no state-changing operation of either decorator can delete a
top-level key - whatever `set`/`update` publishes through the orchestrator,
and whatever `merge` publishes through the base container, binds every
top-level property that the previous state bound. -/
theorem claim_C9_no_key_deleted (h : Heap) (t : String) (e : Bool) (st : JObj)
    (a : UpdAction) (ns : JObj) (e2 : Bool) (evs : List ConsoleEv) (v : JObj)
    (k : String) :
    (update h t e st a = .published ns e2 evs →
      (olookup k st).isSome → (olookup k ns).isSome) ∧
    ((olookup k st).isSome → (olookup k (merge ⟨st⟩ v).1.value).isSome) := by
  constructor
  · intro hok hsome
    rw [update_published_eq h t e st a ns e2 evs hok, olookup_spread2]
    cases hb : olookup k (appliedPatch a st e) <;> simp_all [ofirst]
  · intro hsome
    show (olookup k (spread2 st v)).isSome
    rw [olookup_spread2]
    cases hb : olookup k v <;> simp_all [ofirst]

theorem claim_C9_no_key_deleted_witness :
    (olookup "a" [("a", JVal.num 1), ("b", JVal.num 2)]).isSome ∧
    (olookup "a" (merge ⟨[("a", JVal.num 1)]⟩ [("b", JVal.num 2)]).1.value).isSome :=
  ⟨(claim_C9_no_key_deleted [] "" false [("a", .num 1)] (.value [("b", .num 2)])
      [("a", .num 1), ("b", .num 2)] false [] [("b", .num 2)] "a").1
      (by decide) (by decide),
   (claim_C9_no_key_deleted [] "" false [("a", .num 1)] (.value [("b", .num 2)])
      [("a", .num 1), ("b", .num 2)] false [] [("b", .num 2)] "a").2 (by decide)⟩

/-- C5: `set(value)` on a logging-decorated container is routed through the
same orchestrator as a non-function update action, and from initial state
with message "hello", setting message "world" publishes exactly the state
with message "world" (the console group reports the caller parsed from the
captured trace, the applied value, the serialized previous state and the
published next state). -/
theorem claim_C5_set_is_update :
    (∀ (h : Heap) (t : String) (e : Bool) (st : JObj) (v : JObj),
      loggableSet h t e st v = update h t e st (.value v)) ∧
    loggableSet [] "E at a at b at c at f (src:1)" true
        [("message", .str "hello")] [("message", .str "world")] =
      .published [("message", .str "world")] true
        (log "f" (some "(src:1)") [("message", .str "world")]
          (some "\x7b\"message\":\"hello\"\x7d") [("message", .str "world")]) :=
  ⟨fun _ _ _ _ _ => rfl, by decide⟩

/-- C6: `merge(partial)` on a mergeable container publishes the shallow merge
of the current state with the partial via the base container's `set`, and
emits no console event at all - it never reaches the logging orchestrator,
whatever the logging decorator's enabled flag is (the flag is not even an
input of `merge`). -/
theorem claim_C6_merge_isolation (st v : JObj) (k : String) :
    (merge ⟨st⟩ v).2 = [] ∧
    (merge ⟨st⟩ v).1.value = spread2 st v ∧
    olookup k (merge ⟨st⟩ v).1.value = ofirst (olookup k v) (olookup k st) :=
  ⟨rfl, rfl, olookup_spread2 k st v⟩

/-- C2: with logging enabled and a captured stack trace that has fewer than
five segments separated by "at ", the JS code indexes `undefined` and the
thrown TypeError aborts the update before `store.set` runs: nothing is
published.  The spec requires the opposite (logging failures must never
abort the update), so this exhibits the code's latent defect. -/
theorem claim_C2_shallow_trace_aborts :
    update [] "TypeError: oops\n    at a (s:1)\n" true
      [("k", .str "v")] (.value [("m", .num 1)]) = .thrown := by
  decide

/-- C3 counterexample: with a shallow captured stack trace, running the same
update with the flag true publishes nothing (the logging path throws), while
running it with the flag false publishes the merged state - so the enabled
flag does not only influence console output, contradicting the claim as
stated. -/
theorem claim_C3_counterexample :
    (update [] "TypeError: oops\n    at b (s:2)\n" true
        [("k", .str "v")] (.value [("m", .num 2)])).publishedValue ≠
    (update [] "TypeError: oops\n    at b (s:2)\n" false
        [("k", .str "v")] (.value [("m", .num 2)])).publishedValue := by
  decide

/-- C3 (amended): for every pure update action, provided the captured stack
trace has at least five "at "-separated segments (so the logging path cannot
throw), running with the flag false emits no console event and publishes
exactly the state that the run with the flag true publishes. -/
theorem claim_C3_flag_only_affects_console (h : Heap) (t : String) (st : JObj)
    (a : UpdAction) (hp : a.pureFn) (ht : 5 ≤ (jsSplit "at " t).length) :
    ∃ ns evs, update h t false st a = .published ns false [] ∧
      update h t true st a = .published ns true evs := by
  have h4 : 4 < (jsSplit "at " t).length := by omega
  have hseg : stackFrame t = some ((jsSplit "at " t).get ⟨4, h4⟩) := by
    simp [stackFrame, List.getElem?_eq_getElem h4]
  cases a with
  | value p =>
    refine ⟨spread2 st p,
      log (frameName ((jsSplit "at " t).get ⟨4, h4⟩))
        (frameLink ((jsSplit "at " t).get ⟨4, h4⟩)) p
        (serializeState h st) (spread2 st p), ?_, ?_⟩
    · simp [update]
    · simp [update, hseg, log]
  | fn f =>
    have hf1 : (f st false).1 = (f st true).1 := by rw [hp st false]
    have hf2 : (f st false).2 = false := by rw [hp st false]
    have ht2 : (f st true).2 = true := by rw [hp st true]
    refine ⟨spread2 st (f st true).1,
      log (frameName ((jsSplit "at " t).get ⟨4, h4⟩))
        (frameLink ((jsSplit "at " t).get ⟨4, h4⟩)) (f st true).1
        (serializeState h st) (spread2 st (f st true).1), ?_, ?_⟩
    · simp [update, hf1, hf2]
    · simp [update, ht2, hseg, log]

theorem claim_C3_flag_only_affects_console_witness :
    (UpdAction.pureFn (.value [("m", JVal.num 3)])) ∧
    (5 ≤ (jsSplit "at " "E at a at b at c at f (src:1)").length) ∧
    ∃ ns evs,
      update [] "E at a at b at c at f (src:1)" false [("k", JVal.str "v")]
          (.value [("m", JVal.num 3)]) = .published ns false [] ∧
      update [] "E at a at b at c at f (src:1)" true [("k", JVal.str "v")]
          (.value [("m", JVal.num 3)]) = .published ns true evs :=
  ⟨trivial, by decide,
   claim_C3_flag_only_affects_console [] "E at a at b at c at f (src:1)"
     [("k", JVal.str "v")] (.value [("m", JVal.num 3)]) trivial (by decide)⟩

/-- C7: with logging enabled throughout (any pure action) and a captured
stack trace deep enough to yield a fifth "at "-segment, the console report
has exactly this shape and order: one collapsed group titled with the
extracted caller name, the applied partial value and the caller location;
inside it the PREV STATE line carrying the cycle-safe serialization of the
previous state, then the NEXT STATE line carrying the computed next state,
then a stack trace; then the group end. -/
theorem claim_C7_console_report_shape (h : Heap) (t : String) (st : JObj)
    (a : UpdAction) (seg : String) (hp : a.pureFn) (hseg : stackFrame t = some seg) :
    update h t true st a =
      .published (spread2 st (appliedPatch a st true)) true
        [.groupCollapsed (frameName seg) (appliedPatch a st true) (frameLink seg),
         .logPrev (serializeState h st),
         .logNext (spread2 st (appliedPatch a st true)),
         .trace, .groupEnd] := by
  cases a with
  | value p => simp [update, hseg, log, appliedPatch]
  | fn f =>
    have ht2 : (f st true).2 = true := by rw [hp st true]
    simp [update, hseg, log, appliedPatch, ht2]

theorem claim_C7_console_report_shape_witness :
    (stackFrame "E at a at b at c at f (src:1)" = some "f (src:1)") ∧
    update [] "E at a at b at c at f (src:1)" true [("message", JVal.str "hello")]
        (.value [("message", JVal.str "world")]) =
      .published
        (spread2 [("message", JVal.str "hello")] [("message", JVal.str "world")]) true
        [.groupCollapsed (frameName "f (src:1)")
           (appliedPatch (.value [("message", JVal.str "world")])
             [("message", JVal.str "hello")] true)
           (frameLink "f (src:1)"),
         .logPrev (serializeState [] [("message", JVal.str "hello")]),
         .logNext (spread2 [("message", JVal.str "hello")] [("message", JVal.str "world")]),
         .trace, .groupEnd] :=
  ⟨by decide,
   claim_C7_console_report_shape [] "E at a at b at c at f (src:1)"
     [("message", JVal.str "hello")] (.value [("message", JVal.str "world")])
     "f (src:1)" trivial (by decide)⟩

/-- C10: the orchestrator reads the enabled flag before running the action
(to decide whether to clone the previous state) and again after (to decide
whether to log).  An updater that flips the flag from false to true makes
the emitted report carry `undefined` (`none`) as its PREV STATE, and an
updater that flips it from true to false suppresses the report entirely
while the state is still published. -/
theorem claim_C10_flag_read_twice (h : Heap) (t : String) (st p : JObj)
    (f g : JObj → Bool → JObj × Bool) (seg : String) :
    ((∀ s, f s false = (p, true)) → stackFrame t = some seg →
      update h t false st (.fn f) =
        .published (spread2 st p) true
          (log (frameName seg) (frameLink seg) p none (spread2 st p))) ∧
    ((∀ s, g s true = (p, false)) →
      update h t true st (.fn g) = .published (spread2 st p) false []) := by
  constructor
  · intro hf hseg
    simp [update, hf st, hseg, log]
  · intro hg
    simp [update, hg st]

theorem claim_C10_flag_read_twice_witness :
    update [] "E at a at b at c at f (src:1)" false [("k", JVal.str "v")]
        (.fn (fun _ _ => ([("m", JVal.str "w")], true))) =
      .published (spread2 [("k", JVal.str "v")] [("m", JVal.str "w")]) true
        (log (frameName "f (src:1)") (frameLink "f (src:1)") [("m", JVal.str "w")]
          none (spread2 [("k", JVal.str "v")] [("m", JVal.str "w")])) ∧
    update [] "E at a at b at c at f (src:1)" true [("k", JVal.str "v")]
        (.fn (fun _ _ => ([("m", JVal.str "w")], false))) =
      .published (spread2 [("k", JVal.str "v")] [("m", JVal.str "w")]) false [] :=
  ⟨(claim_C10_flag_read_twice [] "E at a at b at c at f (src:1)"
      [("k", JVal.str "v")] [("m", JVal.str "w")]
      (fun _ _ => ([("m", JVal.str "w")], true))
      (fun _ _ => ([("m", JVal.str "w")], false)) "f (src:1)").1
      (fun _ => rfl) (by decide),
   (claim_C10_flag_read_twice [] "E at a at b at c at f (src:1)"
      [("k", JVal.str "v")] [("m", JVal.str "w")]
      (fun _ _ => ([("m", JVal.str "w")], true))
      (fun _ _ => ([("m", JVal.str "w")], false)) "f (src:1)").2
      (fun _ => rfl)⟩

theorem indexOfJ_eq_none_iff (x : JVal) (l : List JVal) :
    indexOfJ x l = none ↔ x ∉ l := by
  induction l with
  | nil => simp [indexOfJ]
  | cons y ys ih =>
    by_cases hxy : y = x
    · simp [indexOfJ, hxy]
    · simp only [indexOfJ, if_neg hxy, Option.map_eq_none', ih, List.mem_cons]
      constructor
      · intro hh hor
        rcases hor with hh2 | hh2
        · exact hxy hh2.symm
        · exact hh hh2
      · intro hh hm
        exact hh (Or.inr hm)

theorem indexOfJ_append_self (x : JVal) (pre post : List JVal) (hx : x ∉ pre) :
    indexOfJ x (pre ++ x :: post) = some pre.length := by
  induction pre with
  | nil => simp [indexOfJ]
  | cons y ys ih =>
    have hyx : y ≠ x := by
      intro hh
      subst hh
      exact hx (List.mem_cons_self y ys)
    simp only [List.cons_append, indexOfJ, if_neg hyx, List.append_eq]
    rw [ih (fun hm => hx (List.mem_cons_of_mem y hm))]
    simp

theorem not_mem_map_ref (v : JVal) (L : List Nat) (hv : ∀ r, v ≠ .ref r) :
    v ∉ L.map JVal.ref := by
  intro hm
  rcases List.mem_map.mp hm with ⟨r, _, rfl⟩
  exact hv r rfl

theorem ref_mem_map_ref (r : Nat) (L : List Nat) :
    JVal.ref r ∈ L.map JVal.ref ↔ r ∈ L := by
  constructor
  · intro hm
    rcases List.mem_map.mp hm with ⟨r2, hr2, he⟩
    cases he
    exact hr2
  · intro hm
    exact List.mem_map.mpr ⟨r, hm, rfl⟩

theorem getLast_not_mem_dropLast (C : List Nat) (hC : C ≠ []) (hnd : C.Nodup) :
    C.getLast hC ∉ C.dropLast := by
  have hsplit : C.dropLast ++ [C.getLast hC] = C := List.dropLast_append_getLast hC
  rw [← hsplit] at hnd
  rcases List.nodup_append.mp hnd with ⟨_, _, hdisj⟩
  intro hm
  exact hdisj hm (List.mem_singleton_self _)

/-- One replacer invocation on a property of the holder whose proper
ancestors are `L` and whose own reference is `a`: the resulting closure
state is exactly the open chain with the path keys plus the current key, and
the replacer can only return an object reference that is not an open
ancestor (every ancestor reference is replaced by a placeholder string). -/
theorem serializerStep_inv (st : SerSt) (L : List Nat) (a : Nat) (kp : List String)
    (k : String) (v : JVal) (hlen : kp.length = L.length)
    (hinv : SerInv st (L ++ [a]) kp) :
    (serializerStep st (.ref a) k v).1 = ⟨(L ++ [a]).map .ref, kp ++ [k]⟩ ∧
    (∀ r, (serializerStep st (.ref a) k v).2 = .ref r → r ∉ L ++ [a]) := by
  rcases hinv with ⟨hst, hkeys, hnd, hne⟩ | ⟨J, hst, hnd, hkp⟩
  case inl =>
    rw [List.dropLast_concat] at hst hne
    have hna : a ∉ L := by
      intro hm
      exact (List.nodup_append.mp hnd).2.2 hm (List.mem_singleton_self a)
    have hpos : 0 < st.stack.length := by
      rw [hst, List.length_map, List.length_pos]
      exact hne
    have hidx : indexOfJ (JVal.ref a) st.stack = none := by
      rw [indexOfJ_eq_none_iff, hst, ref_mem_map_ref]
      exact hna
    have hstack1 : st.stack ++ [JVal.ref a] = (L ++ [a]).map JVal.ref := by
      rw [hst, List.map_append]
      rfl
    constructor
    · simp only [serializerStep, if_pos hpos, hidx]
      cases hvi : indexOfJ v (st.stack ++ [JVal.ref a]) <;>
        simp [hvi, hstack1, hkeys]
    · intro r hr
      simp only [serializerStep, if_pos hpos, hidx, hstack1] at hr
      cases hvi : indexOfJ v ((L ++ [a]).map JVal.ref) with
      | some q =>
        rw [hvi] at hr
        simp at hr
        split at hr <;> simp_all
      | none =>
        rw [hvi] at hr
        simp at hr
        subst hr
        have hnm := (indexOfJ_eq_none_iff _ _).mp hvi
        rw [ref_mem_map_ref] at hnm
        exact hnm
  case inr =>
    have hndC : (L ++ [a]).Nodup := hnd.of_append_left
    have hna : a ∉ L := by
      intro hm
      exact (List.nodup_append.mp hndC).2.2 hm (List.mem_singleton_self a)
    have hpos : 0 < st.stack.length := by
      rw [hst, List.length_map, List.length_append, List.length_append,
        List.length_singleton]
      omega
    have hdecomp : ((L ++ [a]) ++ J).map JVal.ref =
        L.map JVal.ref ++ JVal.ref a :: J.map JVal.ref := by
      simp
    have hidx : indexOfJ (JVal.ref a) st.stack = some L.length := by
      rw [hst, hdecomp]
      have hnm : JVal.ref a ∉ L.map JVal.ref := by
        rw [ref_mem_map_ref]
        exact hna
      simpa using indexOfJ_append_self (JVal.ref a) (L.map JVal.ref) (J.map JVal.ref) hnm
    have htake : st.stack.take (L.length + 1) = (L ++ [a]).map JVal.ref := by
      rw [hst, List.map_append]
      have hl : ((L ++ [a]).map JVal.ref).length = L.length + 1 := by simp
      rw [← hl, List.take_left]
    have hkeys1 : st.keys.take L.length = kp := by
      rw [← hlen]
      exact hkp
    constructor
    · simp only [serializerStep, if_pos hpos, hidx]
      cases hvi : indexOfJ v (st.stack.take (L.length + 1)) <;>
        simp [hvi, htake, hkeys1]
    · intro r hr
      simp only [serializerStep, if_pos hpos, hidx, htake] at hr
      cases hvi : indexOfJ v ((L ++ [a]).map JVal.ref) with
      | some q =>
        rw [hvi] at hr
        simp at hr
        split at hr <;> simp_all
      | none =>
        rw [hvi] at hr
        simp at hr
        subst hr
        have hnm := (indexOfJ_eq_none_iff _ _).mp hvi
        rw [ref_mem_map_ref] at hnm
        exact hnm

theorem lookup_some_mem_keys {β : Type} (l : List (Nat × β)) (r : Nat) (o : β)
    (hl : l.lookup r = some o) : r ∈ l.map Prod.fst := by
  induction l with
  | nil => simp [List.lookup] at hl
  | cons kv rest ih =>
    cases kv with
    | mk k1 b =>
      simp only [List.lookup] at hl
      by_cases hk : k1 = r
      · exact List.mem_map.mpr ⟨(k1, b), List.mem_cons_self _ _, hk⟩
      · have hbe : (r == k1) = false := beq_false_of_ne (fun hh => hk hh.symm)
        rw [hbe] at hl
        exact List.mem_cons_of_mem _ (ih hl)

theorem serPostVal_of_step (L : List Nat) (a : Nat) (kp : List String) (k : String)
    (hnd : (L ++ [a]).Nodup) :
    SerPostVal ⟨(L ++ [a]).map JVal.ref, kp ++ [k]⟩ (L ++ [a]) kp :=
  ⟨[], by simp, by simp [hnd], List.take_left kp [k]⟩

/-- Serializing a list of fields of the holder `a` with proper ancestors `L`
preserves the chain invariant, provided the one-property serializer `f` does. -/
theorem jfieldsWith_total (f : SerSt → String → JVal → Option (SerSt × String))
    (L : List Nat) (a : Nat) (kp : List String)
    (hf : ∀ st k v, SerInv st (L ++ [a]) kp →
      ∃ st2 s, f st k v = some (st2, s) ∧ SerPostVal st2 (L ++ [a]) kp) :
    ∀ flds st, SerInv st (L ++ [a]) kp →
      ∃ st2 outs, jfieldsWith f st flds = some (st2, outs) ∧
        SerPostFields st2 (L ++ [a]) kp := by
  intro flds
  induction flds with
  | nil =>
    intro st hinv
    refine ⟨st, [], rfl, ?_⟩
    rcases hinv with ⟨hst, hkeys, hnd, hne⟩ | ⟨J, hst, hnd, hkp⟩
    · refine ⟨[], ?_, ?_, ?_⟩
      · rw [List.append_nil]
        exact hst
      · rw [List.append_nil, List.dropLast_concat]
        rw [List.dropLast_concat] at hst
        exact (List.nodup_append.mp hnd).1
      · rw [hkeys, List.take_length]
    · refine ⟨a :: J, ?_, ?_, hkp⟩
      · rw [List.dropLast_concat]
        rw [hst, List.append_assoc, List.singleton_append]
      · rw [List.dropLast_concat]
        rw [List.append_assoc, List.singleton_append] at hnd
        exact hnd
  | cons kv rest ih =>
    intro st hinv
    obtain ⟨st2, s, hf1, hpost⟩ := hf st kv.1 kv.2 hinv
    have hinv2 : SerInv st2 (L ++ [a]) kp := Or.inr hpost
    obtain ⟨st3, outs, hrest, hpf⟩ := ih st2 hinv2
    refine ⟨st3, (jsQuote kv.1 ++ ":" ++ s) :: outs, ?_, hpf⟩
    cases kv
    simp only [jfieldsWith]
    rw [hf1]
    simp [hrest]

/-- With enough fuel, serializing any property value of a holder `a` (proper
ancestor chain `L`, every open reference bound in the heap) succeeds and
preserves the chain invariant.  The fuel only has to cover the references the
chain has not opened yet, which is what makes the cycle detection terminate. -/
theorem jstr_total (h : Heap) :
    ∀ fuel (L : List Nat) (a : Nat) (kp : List String) (st : SerSt) (k : String) (v : JVal),
      kp.length = L.length →
      (∀ c ∈ L ++ [a], c ∈ heapRefsList h) →
      (heapRefsList h).length + 1 ≤ fuel + (L ++ [a]).length →
      SerInv st (L ++ [a]) kp →
      ∃ st2 out, jstr h fuel st (.ref a) k v = some (st2, out) ∧
        SerPostVal st2 (L ++ [a]) kp := by
  intro fuel
  induction fuel with
  | zero =>
    intro L a kp st k v hlen hsub hbound hinv
    exfalso
    have hnd : (L ++ [a]).Nodup := by
      rcases hinv with ⟨_, _, hnd, _⟩ | ⟨J, _, hnd, _⟩
      · exact hnd
      · exact hnd.of_append_left
    have hle : (L ++ [a]).length ≤ (heapRefsList h).length := by
      have h1 : (L ++ [a]).toFinset.card = (L ++ [a]).length :=
        List.toFinset_card_of_nodup hnd
      have h2 : (L ++ [a]).toFinset ⊆ (heapRefsList h).toFinset := by
        intro x hx
        rw [List.mem_toFinset] at hx ⊢
        exact hsub x hx
      calc (L ++ [a]).length = (L ++ [a]).toFinset.card := h1.symm
        _ ≤ (heapRefsList h).toFinset.card := Finset.card_le_card h2
        _ ≤ (heapRefsList h).length := List.toFinset_card_le _
    omega
  | succ fuel ih =>
    intro L a kp st k v hlen hsub hbound hinv
    have hnd : (L ++ [a]).Nodup := by
      rcases hinv with ⟨_, _, hnd, _⟩ | ⟨J, _, hnd, _⟩
      · exact hnd
      · exact hnd.of_append_left
    obtain ⟨hst1, hcls⟩ := serializerStep_inv st L a kp k v hlen hinv
    cases hw : (serializerStep st (.ref a) k v).2 with
    | str s =>
      have hrun : jstr h (fuel + 1) st (.ref a) k v =
          some (⟨(L ++ [a]).map JVal.ref, kp ++ [k]⟩, jsQuote s) := by
        simp only [jstr, hw, hst1]
      exact ⟨_, _, hrun, serPostVal_of_step L a kp k hnd⟩
    | num n =>
      have hrun : jstr h (fuel + 1) st (.ref a) k v =
          some (⟨(L ++ [a]).map JVal.ref, kp ++ [k]⟩, toString n) := by
        simp only [jstr, hw, hst1]
      exact ⟨_, _, hrun, serPostVal_of_step L a kp k hnd⟩
    | bool b =>
      have hrun : jstr h (fuel + 1) st (.ref a) k v =
          some (⟨(L ++ [a]).map JVal.ref, kp ++ [k]⟩, if b then "true" else "false") := by
        simp only [jstr, hw, hst1]
      exact ⟨_, _, hrun, serPostVal_of_step L a kp k hnd⟩
    | null =>
      have hrun : jstr h (fuel + 1) st (.ref a) k v =
          some (⟨(L ++ [a]).map JVal.ref, kp ++ [k]⟩, "null") := by
        simp only [jstr, hw, hst1]
      exact ⟨_, _, hrun, serPostVal_of_step L a kp k hnd⟩
    | ref r =>
      have hrni : r ∉ L ++ [a] := hcls r hw
      cases hfld : fieldsOf h r with
      | none =>
        have hrun : jstr h (fuel + 1) st (.ref a) k v =
            some (⟨(L ++ [a]).map JVal.ref, kp ++ [k]⟩,
              "\x7b" ++ String.intercalate "," [] ++ "\x7d") := by
          simp only [jstr, hw, hst1, hfld]
          simp [jfieldsWith]
        exact ⟨_, _, hrun, serPostVal_of_step L a kp k hnd⟩
      | some flds =>
        have hrmem : r ∈ heapRefsList h := by
          rw [heapRefsList, List.mem_dedup]
          exact lookup_some_mem_keys h r flds hfld
        have hndr : ((L ++ [a]) ++ [r]).Nodup := by
          rw [List.nodup_append]
          refine ⟨hnd, List.nodup_singleton r, ?_⟩
          intro x hx hxr
          rw [List.mem_singleton] at hxr
          subst hxr
          exact hrni hx
        have hsub2 : ∀ c ∈ (L ++ [a]) ++ [r], c ∈ heapRefsList h := by
          intro c hc
          rcases List.mem_append.mp hc with hc | hc
          · exact hsub c hc
          · rw [List.mem_singleton] at hc
            subst hc
            exact hrmem
        have hlen2 : (kp ++ [k]).length = (L ++ [a]).length := by
          simp [hlen]
        have hbound2 : (heapRefsList h).length + 1 ≤ fuel + ((L ++ [a]) ++ [r]).length := by
          simp only [List.length_append, List.length_singleton] at hbound ⊢
          omega
        have hentry : SerInv ⟨(L ++ [a]).map JVal.ref, kp ++ [k]⟩
            ((L ++ [a]) ++ [r]) (kp ++ [k]) := by
          left
          refine ⟨?_, rfl, hndr, ?_⟩
          · rw [List.dropLast_concat]
          · rw [List.dropLast_concat]
            simp
        have hff : ∀ st2 k2 v2, SerInv st2 ((L ++ [a]) ++ [r]) (kp ++ [k]) →
            ∃ st3 s3, jstr h fuel st2 (.ref r) k2 v2 = some (st3, s3) ∧
              SerPostVal st3 ((L ++ [a]) ++ [r]) (kp ++ [k]) :=
          fun st2 k2 v2 hinv2 => ih (L ++ [a]) r (kp ++ [k]) st2 k2 v2 hlen2 hsub2 hbound2 hinv2
        obtain ⟨st3, outs, hrun, hpf⟩ :=
          jfieldsWith_total _ (L ++ [a]) r (kp ++ [k]) hff flds
            ⟨(L ++ [a]).map JVal.ref, kp ++ [k]⟩ hentry
        have hrun2 : jstr h (fuel + 1) st (.ref a) k v =
            some (st3, "\x7b" ++ String.intercalate "," outs ++ "\x7d") := by
          simp only [jstr, hw, hst1, hfld, Option.getD_some]
          rw [hrun]
          rfl
        refine ⟨st3, _, hrun2, ?_⟩
        obtain ⟨J, hstk, hndJ, hkeys⟩ := hpf
        rw [List.dropLast_concat] at hstk hndJ
        refine ⟨J, hstk, hndJ, ?_⟩
        have h1 : st3.keys.take (kp.length + 1) = kp ++ [k] := by
          simpa using hkeys
        have h2 : st3.keys.take kp.length = (st3.keys.take (kp.length + 1)).take kp.length := by
          rw [List.take_take, Nat.min_eq_left (by omega)]
        rw [h2, h1]
        exact List.take_left kp [k]

/-- The cycle-safe serializer is total: `JSON.stringify(value, serializer())`
always yields a string, whatever the heap (cycles included). -/
theorem serializeJSON_total (h : Heap) (v : JVal) : ∃ s, serializeJSON h v = some s := by
  have hroot : serializerStep ⟨[], []⟩ .null "" v = (⟨[v], []⟩, v) := rfl
  rw [serializeJSON]
  cases v with
  | str s =>
    refine ⟨jsQuote s, ?_⟩
    simp only [jstr, hroot]
    rfl
  | num n =>
    refine ⟨toString n, ?_⟩
    simp only [jstr, hroot]
    rfl
  | bool b =>
    refine ⟨if b then "true" else "false", ?_⟩
    simp only [jstr, hroot]
    rfl
  | null =>
    refine ⟨"null", ?_⟩
    simp only [jstr, hroot]
    rfl
  | ref r =>
    cases hfld : fieldsOf h r with
    | none =>
      refine ⟨"\x7b" ++ String.intercalate "," [] ++ "\x7d", ?_⟩
      simp only [jstr, hroot, hfld, Option.getD_none, jfieldsWith]
      rfl
    | some flds =>
      have hrmem : r ∈ heapRefsList h := by
        rw [heapRefsList, List.mem_dedup]
        exact lookup_some_mem_keys h r flds hfld
      have hentry : SerInv ⟨[JVal.ref r], []⟩ ([] ++ [r]) [] :=
        Or.inr ⟨[], by simp, by simp, by simp⟩
      have hff : ∀ st2 k2 v2, SerInv st2 ([] ++ [r]) [] → ∃ st3 s3,
          jstr h (heapRefsList h).length st2 (.ref r) k2 v2 = some (st3, s3) ∧
            SerPostVal st3 ([] ++ [r]) [] :=
        fun st2 k2 v2 hinv2 =>
          jstr_total h (heapRefsList h).length [] r [] st2 k2 v2 rfl
            (by
              intro c hc
              simp at hc
              subst hc
              exact hrmem)
            (by simp) hinv2
      obtain ⟨st3, outs, hrun, _⟩ :=
        jfieldsWith_total _ [] r [] hff flds ⟨[JVal.ref r], []⟩ hentry
      refine ⟨"\x7b" ++ String.intercalate "," outs ++ "\x7d", ?_⟩
      simp only [jstr, hroot, hfld, Option.getD_some]
      rw [hrun]
      rfl

/-- C4: serializing any value over any heap (cyclic object graphs included)
with the replacer produced by `serializer()` terminates with a string and
never throws; a self-referencing object serializes with the root placeholder
"[Circular ~]" in place of the repeated object, and a cycle that closes at a
deeper ancestor serializes with "[Circular ~." followed by the dotted key
path to that ancestor. -/
theorem claim_C4_cycle_safety :
    (∀ (h : Heap) (v : JVal), ∃ s, serializeJSON h v = some s) ∧
    (∀ (h : Heap) (o : JObj), ∃ s, serializeState h o = some s) ∧
    serializeJSON [(0, [("self", .ref 0)])] (.ref 0) =
      some "\x7b\"self\":\"[Circular ~]\"\x7d" ∧
    serializeJSON [(0, [("x", .ref 1)]), (1, [("self", .ref 1)])] (.ref 0) =
      some "\x7b\"x\":\x7b\"self\":\"[Circular ~.x]\"\x7d\x7d" :=
  ⟨serializeJSON_total, fun h o => serializeJSON_total _ _, by decide, by decide⟩
